import Mathlib

/-!
# Verification of the NGKs ExecLedger desktop companion core

This development embeds the two logic-bearing components of the repository:

* the project/path configuration store (`desktop-companion/ui/config.py`):
  path normalization (`normalize_project_root`, `derive_artifacts_root`,
  `normalize_project_entry`), the load/migration pipeline (`_load_config`) and
  the mutating store operations (`upsert_project`, `remove_project`, the
  `artifacts_root` and `tier` setters);
* the external engine gateway (`desktop-companion/ui/engine_client.py`):
  `EngineClient._execute_engine` and `EngineClient._get_engine_path`.

Path strings are modelled with POSIX separator semantics (`os.path.normpath` =
`posixpath.normpath`, `Path` = `pathlib.PurePosixPath`), which is the semantics
the specification's examples use.  Strings are handled as their character
lists; `String.lower` is modelled as character-wise ASCII lowering.  Subprocess
execution and JSON parsing are external effects: they enter the model as an
explicit process outcome and a parse oracle.
-/

/-! ## Character-list utilities (Python `str.split('/')` and `'/'.join`) -/

/-- Model of Python `s.split('/')` on a character list: the list of pieces
between slashes, keeping empty pieces (so `split "" = [""]`, `split "/" = ["",""]`). -/
def splitSlash : List Char → List (List Char)
  | [] => [[]]
  | c :: cs =>
    if c = '/' then [] :: splitSlash cs
    else
      let r := splitSlash cs
      (c :: r.headI) :: r.tail

/-- Model of Python `'/'.join(pieces)`. -/
def joinSlash : List (List Char) → List Char
  | [] => []
  | [p] => p
  | p :: ps => p ++ '/' :: joinSlash ps

/-- Model of Python `str.lower` (ASCII case folding, character-wise). -/
def lowerL (l : List Char) : List Char := l.map Char.toLower

/-- `containsL hay needle`: Boolean substring test (`needle in hay` on strings). -/
def startsL : List Char → List Char → Bool
  | _, [] => true
  | [], _ :: _ => false
  | c :: cs, d :: ds => c = d && startsL cs ds

/-- Boolean substring occurrence test. -/
def containsL (hay needle : List Char) : Bool :=
  startsL hay needle ||
    match hay with
    | [] => false
    | _ :: cs => containsL cs needle

/-- Model of Python `s.endswith(t)`. -/
def strEndsWith (s t : String) : Bool := startsL s.toList.reverse t.toList.reverse

/-! ## `posixpath.normpath`

Translated from CPython's `posixpath.normpath`:

```
if path == '': return '.'
initial_slashes = path.startswith('/')
if path.startswith('//') and not path.startswith('///'): initial_slashes = 2
comps = path.split('/')
new_comps = []
for comp in comps:
    if comp in ('', '.'): continue
    if (comp != '..' or (not initial_slashes and not new_comps) or
         (new_comps and new_comps[-1] == '..')):
        new_comps.append(comp)
    elif new_comps:
        new_comps.pop()
path = '/'.join(new_comps)
if initial_slashes: path = '/'*initial_slashes + path
return path or '.'
```
-/

/-- The `..` path component. -/
def dotdot : List Char := ['.', '.']

/-- Number of leading slashes as `normpath`/`PurePosixPath` count them:
`//`-prefixed (but not `///`-prefixed) paths keep two slashes, any other
slash-prefixed path keeps one. -/
def initialSlashes (l : List Char) : Nat :=
  if l.take 1 = ['/'] then
    if l.take 2 = ['/', '/'] then
      if l.take 3 = ['/', '/', '/'] then 1 else 2
    else 1
  else 0

/-- The component-filtering loop of `posixpath.normpath` (`new_comps` building). -/
def normFold (initial : Bool) : List (List Char) → List (List Char) → List (List Char)
  | acc, [] => acc
  | acc, c :: cs =>
    if c = [] ∨ c = ['.'] then normFold initial acc cs
    else if c ≠ dotdot ∨ (initial = false ∧ acc = []) ∨ acc.getLast? = some dotdot then
      normFold initial (acc ++ [c]) cs
    else if acc ≠ [] then normFold initial acc.dropLast cs
    else normFold initial acc cs

/-- Reassembly step of `normpath`: prefix slashes, join components, and
`path or '.'`. -/
def renderP (s : Nat) (cs : List (List Char)) : List Char :=
  if List.replicate s '/' ++ joinSlash cs = [] then ['.']
  else List.replicate s '/' ++ joinSlash cs

/-- `posixpath.normpath` on a character list. -/
def normpathL (l : List Char) : List Char :=
  if l = [] then ['.']
  else renderP (initialSlashes l) (normFold (initialSlashes l != 0) [] (splitSlash l))

/-! ## `pathlib.PurePosixPath` operations used by `config.py`

`PurePosixPath` parses a path into a root (same two-slash rule as `normpath`)
and the non-empty, non-`'.'` components. -/

/-- The parsed components of `PurePosixPath(l)` (root excluded). -/
def pathCompsL (l : List Char) : List (List Char) :=
  (splitSlash l).filter (fun c => !(c = [] ∨ c = ['.'] : Bool))

/-- `PurePosixPath(l).name`: the final component, `""` for root-only paths. -/
def pathNameL (l : List Char) : List Char := (pathCompsL l).getLast?.getD []

/-- `str(PurePosixPath(l).parent)`: drop the final component; a rootless path
with no remaining components renders as `"."`. -/
def pathParentL (l : List Char) : List Char :=
  let r := initialSlashes l
  let cs := (pathCompsL l).dropLast
  if r = 0 ∧ cs = [] then ['.']
  else List.replicate r '/' ++ joinSlash cs

/-- `str(PurePosixPath(l) / seg)` for a plain relative segment `seg`. -/
def pathJoinNameL (l : List Char) (seg : List Char) : List Char :=
  List.replicate (initialSlashes l) '/' ++ joinSlash (pathCompsL l ++ [seg])

/-! ## `Config` path functions (`desktop-companion/ui/config.py`) -/

/-- `Config.normalize_project_root` (list level): normalize with `normpath`;
if the basename, lowered, is `"_artifacts"` or `"execledger"`, return the
parent directory, else the normalized path. -/
def normalizeProjectRootL (l : List Char) : List Char :=
  let normalized := normpathL l
  let baseName := lowerL (pathNameL normalized)
  if baseName = "_artifacts".toList ∨ baseName = "execledger".toList then
    pathParentL normalized
  else normalized

/-- `Config.derive_artifacts_root` (list level):
`str(Path(normalize_project_root(project_root)) / "execledger")`. -/
def deriveArtifactsRootL (l : List Char) : List Char :=
  pathJoinNameL (normalizeProjectRootL l) "execledger".toList

/-- `Config.normalize_project_root` on strings. -/
def normalize_project_root (path : String) : String :=
  String.mk (normalizeProjectRootL path.toList)

/-- `Config.derive_artifacts_root` on strings. -/
def derive_artifacts_root (project_root : String) : String :=
  String.mk (deriveArtifactsRootL project_root.toList)

/-- `str(PurePosixPath(s).parent)` on strings (used by the legacy migration). -/
def pathParent (s : String) : String := String.mk (pathParentL s.toList)

/-- `str(PurePosixPath(s) / seg)` on strings. -/
def pathJoin (s seg : String) : String := String.mk (pathJoinNameL s.toList seg.toList)

/-! ## The configuration store (`desktop-companion/ui/config.py`)

A project entry as stored in `_config["projects"]` after normalization always
has the three keys `name`, `project_root`, `artifacts_root`. -/

/-- A fully-populated project dictionary. -/
structure Project where
  name : String
  project_root : String
  artifacts_root : String
deriving DecidableEq, Repr

/-- A raw project dictionary as read from the persisted file: each of the
three keys may be absent. -/
structure ProjEntry where
  ename : Option String
  eproject_root : Option String
  eartifacts_root : Option String
deriving DecidableEq, Repr

/-- `Config.normalize_project_entry`, parameterised by the repository root the
source obtains from `__file__` (used only by the defaults branch). -/
def normalize_project_entry (repoRoot : String) (entry : ProjEntry) : Project :=
  if entry.eproject_root.isSome ∧ entry.eartifacts_root.isSome then
    let project_root := normalize_project_root (entry.eproject_root.getD "")
    ⟨entry.ename.getD "ExecLedger", project_root, derive_artifacts_root project_root⟩
  else if entry.eartifacts_root.isSome then
    let legacy_path := entry.eartifacts_root.getD ""
    let project_root0 :=
      if strEndsWith legacy_path "_artifacts" ∨ strEndsWith legacy_path "execledger" then
        pathParent legacy_path
      else legacy_path
    let project_root := normalize_project_root project_root0
    ⟨entry.ename.getD "ExecLedger", project_root, derive_artifacts_root project_root⟩
  else
    let project_root := normalize_project_root repoRoot
    ⟨entry.ename.getD "ExecLedger", project_root, derive_artifacts_root project_root⟩

/-- The parsed persisted configuration file; every key may be absent. -/
structure RawConfig where
  rartifacts_root : Option String
  rdev_mode : Option Int
  rtier : Option String
  rprojects : Option (List ProjEntry)
  ractive_project : Option String
deriving Repr

/-- The in-memory `_config` dictionary.  After `_load_config` merges the file
with the defaults, all five keys are present, so the state is total. -/
structure ConfigState where
  cartifacts_root : String
  cdev_mode : Int
  ctier : String
  cprojects : List Project
  cactive_project : String
deriving DecidableEq, Repr

/-- The default single-project list: `project_root` is the raw repository
root, `artifacts_root` is derived from it. -/
def defaultProjects (repoRoot : String) : List Project :=
  [⟨"ExecLedger", repoRoot, derive_artifacts_root repoRoot⟩]

/-- `Config._load_config` on a successfully parsed file: legacy migration of a
flat `artifacts_root`, normalization of every project entry, then merge with
the defaults (file keys win). -/
def load_config (repoRoot : String) (file : RawConfig) : ConfigState :=
  let file :=
    if file.rprojects.isNone ∧ file.rartifacts_root.isSome then
      { file with
          rprojects := some [⟨some "ExecLedger", none, file.rartifacts_root⟩],
          ractive_project := some "ExecLedger" }
    else file
  let nprojects := file.rprojects.map (fun ps => ps.map (normalize_project_entry repoRoot))
  { cartifacts_root := file.rartifacts_root.getD (derive_artifacts_root repoRoot),
    cdev_mode := file.rdev_mode.getD 1,
    ctier := file.rtier.getD "PREMIUM",
    cprojects := nprojects.getD (defaultProjects repoRoot),
    cactive_project := file.ractive_project.getD "ExecLedger" }

/-! Every mutator calls `save_config`, a synchronous full write of `_config`.
The model returns, along with the new state, the list of snapshots handed to
`save_config`, in order. -/

/-- `Config.set_projects`: store the list and persist. -/
def set_projects (st : ConfigState) (ps : List Project) : ConfigState × List ConfigState :=
  let st' := { st with cprojects := ps }
  (st', [st'])

/-- `Config.set_active_project_name`: store the name and persist. -/
def set_active_project_name (st : ConfigState) (name : String) :
    ConfigState × List ConfigState :=
  let st' := { st with cactive_project := name }
  (st', [st'])

/-- `Config.get_active_project`: first project whose name matches the active
pointer, if any. -/
def get_active_project (st : ConfigState) : Option Project :=
  st.cprojects.find? (fun p => p.name = st.cactive_project)

/-- The update loop of `Config.upsert_project`: update the first entry with a
matching name in place, else append a fresh entry. -/
def upsertList (name pr ar : String) : List Project → List Project
  | [] => [⟨name, pr, ar⟩]
  | p :: ps =>
    if p.name = name then { p with project_root := pr, artifacts_root := ar } :: ps
    else p :: upsertList name pr ar ps

/-- `Config.upsert_project`: normalize the root, derive the artifacts root,
update-or-append, persist. -/
def upsert_project (st : ConfigState) (name project_root : String) :
    ConfigState × List ConfigState :=
  let project_root := normalize_project_root project_root
  let artifacts_root := derive_artifacts_root project_root
  set_projects st (upsertList name project_root artifacts_root st.cprojects)

/-- `Config.remove_project`: refuse to drop the last project; otherwise filter
by name, persist, and if the removed name was the active pointer, repoint it
at the first remaining project. -/
def remove_project (st : ConfigState) (name : String) :
    Bool × ConfigState × List ConfigState :=
  if st.cprojects.length ≤ 1 then (false, st, [])
  else
    let projects := st.cprojects.filter (fun p => decide (p.name ≠ name))
    let st1 := { st with cprojects := projects }
    if st1.cactive_project = name then
      match projects.head? with
      | some p =>
        let st2 := { st1 with cactive_project := p.name }
        (true, st2, [st1, st2])
      | none => (true, st1, [st1])
    else (true, st1, [st1])

/-- The update loop of the `artifacts_root` setter: the first project whose
name matches the active pointer gets `project_root := value` and a re-derived
`artifacts_root`. -/
def setRootFirst (active value : String) : List Project → List Project
  | [] => []
  | p :: ps =>
    if p.name = active then
      { p with project_root := value, artifacts_root := derive_artifacts_root value } :: ps
    else p :: setRootFirst active value ps

/-- The `artifacts_root` property setter: reinterpret the assigned value as the
active project's new `project_root`; with no active project, write the legacy
top-level field directly. -/
def set_artifacts_root (st : ConfigState) (value : String) :
    ConfigState × List ConfigState :=
  match get_active_project st with
  | some _ => set_projects st (setRootFirst st.cactive_project value st.cprojects)
  | none =>
    let st' := { st with cartifacts_root := value }
    (st', [st'])

/-- The `tier` property setter.  The first component models a raised
`ValueError` (`some message` when the exception escapes, `none` otherwise). -/
def set_tier (st : ConfigState) (value : String) :
    Option String × ConfigState × List ConfigState :=
  if value = "FREE" ∨ value = "PRO" ∨ value = "PREMIUM" then
    let st' := { st with ctier := value }
    (none, st', [st'])
  else (some ("Invalid tier: " ++ value), st, [])

/-! ## The engine gateway (`desktop-companion/ui/engine_client.py`) -/

/-- The result object built by `EngineClient._execute_engine`; `J` is the type
of parsed JSON documents. -/
structure EngineResult (J : Type) where
  ok : Bool
  contract : Option J
  stdout : String
  stderr : String
  code : Int
  cmd : List String
deriving Repr

/-- The outcome of `subprocess.run(cmd, capture_output=True, timeout=30)`:
normal completion, `TimeoutExpired`, or any other exception (launch failure). -/
inductive ProcOutcome where
  | completed (stdout stderr : String) (returncode : Int)
  | timedOut
  | raised (msg : String)
deriving Repr

/-- The subprocess timeout passed by `_execute_engine` (`timeout=30`). -/
def engineTimeoutSeconds : Nat := 30

/-- `EngineClient._execute_engine`, with `json.loads` abstracted as the parse
oracle `parse` (`Except.error` carries `str(e)` of the `JSONDecodeError`).
Note the source f-string `f"JSON parse error: {e}\\n{stderr}"` contains a
literal backslash-n, not a newline. -/
def executeEngine {J : Type} (parse : String → Except String J)
    (cmd : List String) : ProcOutcome → EngineResult J
  | .completed stdout stderr returncode =>
    if returncode = 0 then
      match parse stdout with
      | .ok contract => ⟨true, some contract, stdout, stderr, returncode, cmd⟩
      | .error e =>
        ⟨false, none, stdout, "JSON parse error: " ++ e ++ "\\n" ++ stderr,
          returncode, cmd⟩
    else ⟨false, none, stdout, stderr, returncode, cmd⟩
  | .timedOut => ⟨false, none, "", "Engine timeout after 30s", -1, cmd⟩
  | .raised msg => ⟨false, none, "", "Engine execution failed: " ++ msg, -1, cmd⟩

/-- `EngineClient._get_engine_path`: raises `FileNotFoundError` when the
engine file does not exist (`Except.error` carries the exception message). -/
def getEnginePath (engineExists : Bool) (enginePath : String) : Except String String :=
  if engineExists then .ok enginePath
  else .error ("Engine not found at: " ++ enginePath)

/-! ## Splitting and joining lemmas -/

theorem splitSlash_cons_slash (cs : List Char) :
    splitSlash ('/' :: cs) = [] :: splitSlash cs := by
  simp [splitSlash]

theorem splitSlash_cons {c : Char} (cs : List Char) (h : c ≠ '/') :
    splitSlash (c :: cs) = (c :: (splitSlash cs).headI) :: (splitSlash cs).tail := by
  simp [splitSlash, h]

theorem splitSlash_ne_nil (l : List Char) : splitSlash l ≠ [] := by
  cases l with
  | nil => simp [splitSlash]
  | cons c cs => by_cases h : c = '/' <;> simp [splitSlash, h]

theorem splitSlash_no_slash : ∀ l : List Char, '/' ∉ l → splitSlash l = [l]
  | [], _ => rfl
  | c :: cs, h => by
    have hc : c ≠ '/' := fun e => h (e ▸ List.mem_cons_self c cs)
    rw [splitSlash_cons cs hc,
      splitSlash_no_slash cs (fun m => h (List.mem_cons_of_mem _ m))]
    simp

theorem splitSlash_append_slash :
    ∀ p t : List Char, '/' ∉ p → splitSlash (p ++ '/' :: t) = p :: splitSlash t
  | [], t, _ => by simp [splitSlash_cons_slash]
  | c :: cs, t, h => by
    have hc : c ≠ '/' := fun e => h (e ▸ List.mem_cons_self c cs)
    have ih := splitSlash_append_slash cs t (fun m => h (List.mem_cons_of_mem _ m))
    rw [List.cons_append, splitSlash_cons _ hc, ih]
    simp

theorem splitSlash_joinSlash :
    ∀ ps : List (List Char), ps ≠ [] → (∀ p ∈ ps, '/' ∉ p) →
      splitSlash (joinSlash ps) = ps
  | [p], _, h => by
    simpa [joinSlash] using splitSlash_no_slash p (h p (List.mem_singleton_self p))
  | p :: q :: ps, _, h => by
    have h1 : '/' ∉ p := h p (List.mem_cons_self _ _)
    have ih := splitSlash_joinSlash (q :: ps) (by simp)
      (fun r hr => h r (List.mem_cons_of_mem _ hr))
    show splitSlash (p ++ '/' :: joinSlash (q :: ps)) = p :: q :: ps
    rw [splitSlash_append_slash _ _ h1, ih]

theorem mem_splitSlash_no_slash :
    ∀ l p, p ∈ splitSlash l → '/' ∉ p
  | [], p, hp => by
    simp only [splitSlash, List.mem_singleton] at hp
    simp [hp]
  | c :: cs, p, hp => by
    by_cases hc : c = '/'
    · subst hc
      rw [splitSlash_cons_slash] at hp
      rcases List.mem_cons.mp hp with h | h
      · simp [h]
      · exact mem_splitSlash_no_slash cs p h
    · rw [splitSlash_cons cs hc] at hp
      rcases List.mem_cons.mp hp with h | h
      · subst h
        intro hm
        rcases List.mem_cons.mp hm with h' | h'
        · exact hc h'.symm
        · obtain ⟨x, xs, hx⟩ : ∃ x xs, splitSlash cs = x :: xs := by
            cases hxx : splitSlash cs with
            | nil => exact absurd hxx (splitSlash_ne_nil cs)
            | cons x xs => exact ⟨x, xs, rfl⟩
          have : (splitSlash cs).headI ∈ splitSlash cs := by
            rw [hx]; simp
          exact mem_splitSlash_no_slash cs _ this h'
      · exact mem_splitSlash_no_slash cs p (List.mem_of_mem_tail h)

theorem joinSlash_ne_nil_of_last_ne_nil :
    ∀ (cs : List (List Char)) (seg : List Char), seg ≠ [] →
      joinSlash (cs ++ [seg]) ≠ []
  | [], seg, hseg => by simpa [joinSlash]
  | c :: cs, seg, hseg => by
    have : c :: cs ++ [seg] = c :: (cs ++ [seg]) := by simp
    rw [this]
    cases h : cs ++ [seg] with
    | nil => exact absurd h (by simp)
    | cons x xs =>
      show joinSlash (c :: x :: xs) ≠ []
      simp [joinSlash]

/-! ## Canonical component lists

`normpath` output components are non-empty, not `"."`, slash-free, and their
`".."` components form a (possibly empty) prefix — which is empty for
absolute paths. -/

/-- A component as it can appear in `normpath` output. -/
def isNormComp (c : List Char) : Prop := c ≠ [] ∧ c ≠ ['.'] ∧ '/' ∉ c

instance decIsNormComp (c : List Char) : Decidable (isNormComp c) := by
  unfold isNormComp; infer_instance

/-- The invariant of `new_comps` in `posixpath.normpath`. -/
def GoodComps (initial : Bool) (L : List (List Char)) : Prop :=
  (∀ c ∈ L, isNormComp c) ∧
    ∃ n rest, L = List.replicate n dotdot ++ rest ∧ dotdot ∉ rest ∧
      (initial = true → n = 0)

theorem goodComps_nil (initial : Bool) : GoodComps initial [] :=
  ⟨by simp, 0, [], by simp, by simp, fun _ => rfl⟩

theorem normFold_no_dd (initial : Bool) :
    ∀ (cs : List (List Char)) (acc : List (List Char)),
      (∀ c ∈ cs, isNormComp c ∧ c ≠ dotdot) →
      normFold initial acc cs = acc ++ cs
  | [], acc, _ => by simp [normFold]
  | c :: cs, acc, h => by
    obtain ⟨⟨hne, hnd, _⟩, hdd⟩ := h c (List.mem_cons_self _ _)
    have ih := normFold_no_dd initial cs (acc ++ [c])
      (fun x hx => h x (List.mem_cons_of_mem _ hx))
    rw [normFold, if_neg (by simp [hne, hnd]), if_pos (Or.inl hdd), ih]
    simp

theorem normFold_dds (rest : List (List Char))
    (hrest : ∀ c ∈ rest, isNormComp c ∧ c ≠ dotdot) :
    ∀ (n k : Nat),
      normFold false (List.replicate k dotdot) (List.replicate n dotdot ++ rest) =
        List.replicate (k + n) dotdot ++ rest
  | 0, k => by simpa using normFold_no_dd false rest (List.replicate k dotdot) hrest
  | n + 1, k => by
    have hdd1 : (dotdot = [] ∨ dotdot = ['.']) = False := by simp [dotdot]
    have step : List.replicate (n + 1) dotdot ++ rest =
        dotdot :: (List.replicate n dotdot ++ rest) := by
      simp [List.replicate_succ]
    rw [step, normFold, if_neg (by simp [dotdot])]
    have hcond : (dotdot ≠ dotdot ∨ (false = false ∧ List.replicate k dotdot = []) ∨
        (List.replicate k dotdot).getLast? = some dotdot) := by
      cases k with
      | zero => exact Or.inr (Or.inl ⟨rfl, by simp⟩)
      | succ k =>
        refine Or.inr (Or.inr ?_)
        rw [List.replicate_succ']
        simp
    rw [if_pos hcond, ← List.replicate_succ']
    have := normFold_dds rest hrest n (k + 1)
    rw [this]
    have e : k + 1 + n = k + (n + 1) := by omega
    rw [e]

theorem normFold_id {initial : Bool} {L : List (List Char)}
    (h : GoodComps initial L) : normFold initial [] L = L := by
  obtain ⟨hA, n, rest, rfl, hdd, hinit⟩ := h
  have hrest : ∀ c ∈ rest, isNormComp c ∧ c ≠ dotdot := by
    intro c hc
    refine ⟨hA c (by simp [hc]), fun e => hdd (e ▸ hc)⟩
  cases initial with
  | false => simpa using normFold_dds rest hrest n 0
  | true =>
    rw [hinit rfl]
    simpa using normFold_no_dd true rest [] hrest

theorem mem_of_getLast?_eq {α : Type} {l : List α} {a : α}
    (h : l.getLast? = some a) : a ∈ l := by
  obtain ⟨hne, rfl⟩ := List.mem_getLast?_eq_getLast (l := l) (x := a) h
  exact List.getLast_mem hne

theorem normFold_good (initial : Bool) :
    ∀ (cs acc : List (List Char)),
      GoodComps initial acc → (∀ c ∈ cs, '/' ∉ c) →
      GoodComps initial (normFold initial acc cs)
  | [], acc, hacc, _ => by simpa [normFold] using hacc
  | c :: cs, acc, hacc, hs => by
    have hcs : ∀ x ∈ cs, '/' ∉ x := fun x hx => hs x (List.mem_cons_of_mem _ hx)
    by_cases h1 : c = [] ∨ c = ['.']
    · rw [normFold, if_pos h1]
      exact normFold_good initial cs acc hacc hcs
    · by_cases h2 : c ≠ dotdot ∨ (initial = false ∧ acc = []) ∨
          acc.getLast? = some dotdot
      · rw [normFold, if_neg h1, if_pos h2]
        refine normFold_good initial cs _ ?_ hcs
        obtain ⟨hA, n, rest, hL, hdd, hinit⟩ := hacc
        have hcomp : isNormComp c := by
          push_neg at h1
          exact ⟨h1.1, h1.2, hs c (List.mem_cons_self _ _)⟩
        refine ⟨?_, ?_⟩
        · intro x hx
          rcases List.mem_append.mp hx with hx | hx
          · exact hA x hx
          · rw [List.mem_singleton.mp hx]; exact hcomp
        · by_cases hc : c = dotdot
          · subst hc
            rcases h2 with h2 | ⟨hi, haccnil⟩ | hlast
            · exact absurd rfl h2
            · refine ⟨1, [], by rw [haccnil]; simp, by simp, ?_⟩
              intro hi2; rw [hi] at hi2; cases hi2
            · have hrest_nil : rest = [] := by
                by_contra hrne
                have he : acc.getLast? = rest.getLast? := by
                  rw [hL]; exact List.getLast?_append_of_ne_nil _ hrne
                have : dotdot ∈ rest := by
                  refine mem_of_getLast?_eq (l := rest) ?_
                  rw [← he, hlast]
                exact hdd this
              subst hrest_nil
              refine ⟨n + 1, [], ?_, by simp, ?_⟩
              · rw [hL]; simp [List.replicate_succ']
              · intro hi
                have hn0 := hinit hi
                rw [hL, hn0] at hlast
                simp at hlast
          · refine ⟨n, rest ++ [c], by rw [hL]; simp, ?_, hinit⟩
            intro hx
            rcases List.mem_append.mp hx with hx | hx
            · exact hdd hx
            · exact hc (List.mem_singleton.mp hx).symm
      · rw [normFold, if_neg h1, if_neg h2]
        by_cases h3 : acc = []
        · rw [if_neg (by simp [h3])]
          exact normFold_good initial cs acc hacc hcs
        · rw [if_pos h3]
          refine normFold_good initial cs _ ?_ hcs
          obtain ⟨hA, n, rest, hL, hdd, hinit⟩ := hacc
          refine ⟨fun x hx => hA x ((List.dropLast_sublist acc).subset hx), ?_⟩
          by_cases hr : rest = []
          · subst hr
            cases n with
            | zero => exact ⟨0, [], by rw [hL]; simp, by simp, fun _ => rfl⟩
            | succ m =>
              refine ⟨m, [], ?_, by simp, ?_⟩
              · rw [hL]; simp [List.replicate_succ', List.dropLast_concat]
              · intro hi
                have := hinit hi
                omega
          · refine ⟨n, rest.dropLast, ?_,
              fun hx => hdd ((List.dropLast_sublist rest).subset hx), hinit⟩
            rw [hL, List.dropLast_append_of_ne_nil _ hr]

/-! ## Rendered canonical paths parse back to their components -/

theorem initialSlashes_le (l : List Char) : initialSlashes l ≤ 2 := by
  unfold initialSlashes
  split_ifs <;> omega

theorem splitSlash_replicate_append :
    ∀ (s : Nat) (t : List Char),
      splitSlash (List.replicate s '/' ++ t) = List.replicate s [] ++ splitSlash t
  | 0, t => by simp
  | s + 1, t => by
    rw [List.replicate_succ, List.cons_append, splitSlash_cons_slash,
      splitSlash_replicate_append s t, List.replicate_succ, List.cons_append]

theorem normFold_empties (initial : Bool) :
    ∀ (k : Nat) (acc cs : List (List Char)),
      normFold initial acc (List.replicate k [] ++ cs) = normFold initial acc cs
  | 0, _, _ => by simp
  | k + 1, acc, cs => by
    rw [List.replicate_succ, List.cons_append, normFold, if_pos (Or.inl rfl),
      normFold_empties initial k acc cs]

theorem joinSlash_head (d : Char) (ds : List Char) (cs : List (List Char)) :
    ∃ t, joinSlash ((d :: ds) :: cs) = d :: t := by
  cases cs with
  | nil => exact ⟨ds, rfl⟩
  | cons q qs => exact ⟨ds ++ '/' :: joinSlash (q :: qs), by simp [joinSlash]⟩

theorem initialSlashes_replicate_append (s : Nat) (hs : s ≤ 2) (rest : List Char)
    (h : ∀ d, rest.head? = some d → d ≠ '/') :
    initialSlashes (List.replicate s '/' ++ rest) = s := by
  interval_cases s <;> cases rest with
  | nil => simp [initialSlashes]
  | cons d t =>
    have hd : d ≠ '/' := h d rfl
    simp [initialSlashes, List.replicate, hd]

theorem initialSlashes_renderP (s : Nat) (hs : s ≤ 2) (cs : List (List Char))
    (h : ∀ c ∈ cs, isNormComp c) : initialSlashes (renderP s cs) = s := by
  cases cs with
  | nil => interval_cases s <;> decide
  | cons c cs' =>
    obtain ⟨hne, -, hsl⟩ := h c (List.mem_cons_self _ _)
    obtain ⟨d, ds, rfl⟩ : ∃ d ds, c = d :: ds := by
      cases c with
      | nil => exact absurd rfl hne
      | cons d ds => exact ⟨d, ds, rfl⟩
    have hd : d ≠ '/' := fun e => hsl (e ▸ List.mem_cons_self d ds)
    obtain ⟨t, ht⟩ := joinSlash_head d ds cs'
    rw [renderP]
    simp only [ht]
    rw [if_neg (by simp)]
    refine initialSlashes_replicate_append s hs (d :: t) ?_
    intro d' hd'
    simp only [List.head?_cons, Option.some.injEq] at hd'
    rw [← hd']
    exact hd

theorem pathCompsL_renderP (s : Nat) (hs : s ≤ 2) (cs : List (List Char))
    (h : ∀ c ∈ cs, isNormComp c) : pathCompsL (renderP s cs) = cs := by
  cases cs with
  | nil => interval_cases s <;> decide
  | cons c cs' =>
    have hnn : (c :: cs') ≠ [] := by simp
    have hnosl : ∀ p ∈ c :: cs', '/' ∉ p := fun p hp => (h p hp).2.2
    have hjoin : joinSlash (c :: cs') ≠ [] := by
      obtain ⟨hne, -, -⟩ := h c (List.mem_cons_self _ _)
      obtain ⟨d, ds, rfl⟩ : ∃ d ds, c = d :: ds := by
        cases c with
        | nil => exact absurd rfl hne
        | cons d ds => exact ⟨d, ds, rfl⟩
      obtain ⟨t, ht⟩ := joinSlash_head d ds cs'
      simp [ht]
    rw [renderP, if_neg (by simp [hjoin])]
    unfold pathCompsL
    rw [splitSlash_replicate_append, splitSlash_joinSlash _ hnn hnosl,
      List.filter_append]
    have h1 : (List.replicate s ([] : List Char)).filter
        (fun c => !(c = [] ∨ c = ['.'] : Bool)) = [] := by
      rw [List.filter_eq_nil_iff]
      intro a ha
      rw [List.eq_of_mem_replicate ha]
      simp
    have h2 : (c :: cs').filter (fun c => !(c = [] ∨ c = ['.'] : Bool)) = c :: cs' := by
      rw [List.filter_eq_self]
      intro a ha
      obtain ⟨h1', h2', -⟩ := h a ha
      simp [h1', h2']
    rw [h1, h2, List.nil_append]

theorem pathNameL_renderP (s : Nat) (hs : s ≤ 2) (cs : List (List Char))
    (h : ∀ c ∈ cs, isNormComp c) :
    pathNameL (renderP s cs) = cs.getLast?.getD [] := by
  unfold pathNameL
  rw [pathCompsL_renderP s hs cs h]

theorem renderP_ne_nil (s : Nat) (cs : List (List Char)) : renderP s cs ≠ [] := by
  unfold renderP
  split_ifs with h
  · simp
  · exact h

theorem pathParentL_renderP (s : Nat) (hs : s ≤ 2) (cs : List (List Char))
    (h : ∀ c ∈ cs, isNormComp c) :
    pathParentL (renderP s cs) = renderP s cs.dropLast := by
  unfold pathParentL
  rw [initialSlashes_renderP s hs cs h, pathCompsL_renderP s hs cs h]
  by_cases hc : s = 0 ∧ cs.dropLast = []
  · rw [if_pos hc, renderP, hc.1, hc.2]
    decide
  · rw [if_neg hc, renderP]
    have : List.replicate s '/' ++ joinSlash cs.dropLast ≠ [] := by
      intro he
      rcases List.append_eq_nil.mp he with ⟨he1, he2⟩
      have hs0 : s = 0 := by
        cases s with
        | zero => rfl
        | succ n => simp [List.replicate_succ] at he1
      refine hc ⟨hs0, ?_⟩
      cases hcd : cs.dropLast with
      | nil => rfl
      | cons c cs' =>
        have hcmem : c ∈ cs := (List.dropLast_sublist cs).subset (hcd ▸ List.mem_cons_self c cs')
        obtain ⟨hne, -, -⟩ := h c hcmem
        obtain ⟨d, ds, rfl⟩ : ∃ d ds, c = d :: ds := by
          cases c with
          | nil => exact absurd rfl hne
          | cons d ds => exact ⟨d, ds, rfl⟩
        obtain ⟨t, ht⟩ := joinSlash_head d ds cs'
        rw [hcd, ht] at he2
        cases he2
    rw [if_neg this]

theorem pathJoinNameL_renderP (s : Nat) (hs : s ≤ 2) (cs : List (List Char))
    (h : ∀ c ∈ cs, isNormComp c) (seg : List Char) (hseg : seg ≠ []) :
    pathJoinNameL (renderP s cs) seg = renderP s (cs ++ [seg]) := by
  unfold pathJoinNameL
  rw [initialSlashes_renderP s hs cs h, pathCompsL_renderP s hs cs h, renderP]
  rw [if_neg (by simp [joinSlash_ne_nil_of_last_ne_nil cs seg hseg])]

/-! ## `normpath` is idempotent, and `normalize_project_root` output is canonical -/

theorem normpathL_eq (l : List Char) :
    normpathL l =
      renderP (initialSlashes l)
        (normFold (initialSlashes l != 0) [] (splitSlash l)) := by
  by_cases h : l = []
  · subst h; decide
  · rw [normpathL, if_neg h]

theorem goodComps_normpath (l : List Char) :
    GoodComps (initialSlashes l != 0) (normFold (initialSlashes l != 0) [] (splitSlash l)) :=
  normFold_good _ (splitSlash l) [] (goodComps_nil _) (mem_splitSlash_no_slash l)

theorem goodComps_dropLast {b : Bool} {cs : List (List Char)}
    (h : GoodComps b cs) : GoodComps b cs.dropLast := by
  obtain ⟨hA, n, rest, hL, hdd, hinit⟩ := h
  refine ⟨fun x hx => hA x ((List.dropLast_sublist cs).subset hx), ?_⟩
  by_cases hr : rest = []
  · subst hr
    cases n with
    | zero => exact ⟨0, [], by rw [hL]; simp, by simp, fun _ => rfl⟩
    | succ m =>
      refine ⟨m, [], ?_, by simp, ?_⟩
      · rw [hL]; simp [List.replicate_succ', List.dropLast_concat]
      · intro hi
        have := hinit hi
        omega
  · refine ⟨n, rest.dropLast, ?_,
      fun hx => hdd ((List.dropLast_sublist rest).subset hx), hinit⟩
    rw [hL, List.dropLast_append_of_ne_nil _ hr]

theorem normpathL_renderP (s : Nat) (hs : s ≤ 2) (cs : List (List Char))
    (hg : GoodComps (s != 0) cs) : normpathL (renderP s cs) = renderP s cs := by
  cases cs with
  | nil => interval_cases s <;> decide
  | cons c cs' =>
    obtain ⟨hne, -, -⟩ := hg.1 c (List.mem_cons_self _ _)
    obtain ⟨d, ds, rfl⟩ : ∃ d ds, c = d :: ds := by
      cases c with
      | nil => exact absurd rfl hne
      | cons d ds => exact ⟨d, ds, rfl⟩
    obtain ⟨t, ht⟩ := joinSlash_head d ds cs'
    have hm : renderP s ((d :: ds) :: cs') =
        List.replicate s '/' ++ joinSlash ((d :: ds) :: cs') := by
      rw [renderP, if_neg (by simp [ht])]
    rw [normpathL_eq (renderP s ((d :: ds) :: cs')),
      initialSlashes_renderP s hs _ hg.1]
    have hsplit : splitSlash (renderP s ((d :: ds) :: cs')) =
        List.replicate s [] ++ (d :: ds) :: cs' := by
      rw [hm, splitSlash_replicate_append,
        splitSlash_joinSlash _ (by simp) (fun p hp => (hg.1 p hp).2.2)]
    rw [hsplit, normFold_empties, normFold_id hg]

theorem normpathL_idem (l : List Char) : normpathL (normpathL l) = normpathL l := by
  rw [normpathL_eq l]
  exact normpathL_renderP _ (initialSlashes_le l) _ (goodComps_normpath l)

/-- Structure of `normalize_project_root`: its output is the canonical
rendering of the `normpath` components, with the final component dropped when
its lowering is a reserved name. -/
theorem normalize_structure (l : List Char) :
    ∃ s cs, s ≤ 2 ∧ GoodComps (s != 0) cs ∧
      normpathL l = renderP s cs ∧
      normalizeProjectRootL l =
        (if lowerL (cs.getLast?.getD []) = "_artifacts".toList ∨
            lowerL (cs.getLast?.getD []) = "execledger".toList
         then renderP s cs.dropLast else renderP s cs) := by
  refine ⟨initialSlashes l, normFold (initialSlashes l != 0) [] (splitSlash l),
    initialSlashes_le l, goodComps_normpath l, normpathL_eq l, ?_⟩
  simp only [normalizeProjectRootL]
  rw [normpathL_eq l,
    pathNameL_renderP _ (initialSlashes_le l) _ (goodComps_normpath l).1]
  split_ifs with h
  · exact pathParentL_renderP _ (initialSlashes_le l) _ (goodComps_normpath l).1
  · rfl

theorem toList_mk (l : List Char) : (String.mk l).toList = l := rfl

/-! ## Substring occurrences -/

theorem startsL_append : ∀ needle r : List Char, startsL (needle ++ r) needle = true
  | [], r => by simp [startsL]
  | d :: ds, r => by simp [startsL, startsL_append ds r]

theorem startsL_iff : ∀ hay needle : List Char,
    (startsL hay needle = true ↔ ∃ r, hay = needle ++ r)
  | hay, [] => by simp [startsL]
  | [], d :: ds => by simp [startsL]
  | c :: cs, d :: ds => by
    rw [startsL]
    simp only [Bool.and_eq_true, decide_eq_true_eq]
    constructor
    · rintro ⟨rfl, hs⟩
      obtain ⟨r, rfl⟩ := (startsL_iff cs ds).mp hs
      exact ⟨r, rfl⟩
    · rintro ⟨r, hr⟩
      rw [List.cons_append] at hr
      injection hr with hcd hcs
      subst hcd
      subst hcs
      exact ⟨rfl, startsL_append ds r⟩

theorem containsL_iff : ∀ hay needle : List Char,
    (containsL hay needle = true ↔ ∃ l r, hay = l ++ needle ++ r)
  | [], needle => by
    rw [containsL]
    simp only [Bool.or_false]
    rw [startsL_iff]
    constructor
    · rintro ⟨r, hr⟩; exact ⟨[], r, by simpa using hr⟩
    · rintro ⟨l, r, hr⟩
      rcases List.append_eq_nil.mp hr.symm with ⟨h1, h2⟩
      rcases List.append_eq_nil.mp h1 with ⟨-, h4⟩
      refine ⟨[], ?_⟩
      rw [h4]
      rfl
  | c :: cs, needle => by
    rw [containsL]
    simp only [Bool.or_eq_true]
    constructor
    · rintro (hs | hc)
      · obtain ⟨r, hr⟩ := (startsL_iff _ _).mp hs
        exact ⟨[], r, by simpa using hr⟩
      · obtain ⟨l, r, hr⟩ := (containsL_iff cs needle).mp hc
        exact ⟨c :: l, r, by simp [hr]⟩
    · rintro ⟨l, r, hr⟩
      cases l with
      | nil => exact Or.inl ((startsL_iff _ _).mpr ⟨r, by simpa using hr⟩)
      | cons x xs =>
        rw [List.cons_append, List.cons_append] at hr
        injection hr with hcx hcs
        exact Or.inr ((containsL_iff cs needle).mpr ⟨xs, r, hcs⟩)

theorem not_contains (hay needle : List Char)
    (h : ¬ ∃ l r, hay = l ++ needle ++ r) : containsL hay needle = false := by
  cases hb : containsL hay needle
  · rfl
  · exact absurd ((containsL_iff hay needle).mp hb) h

theorem contains_false_no_occ {hay needle : List Char}
    (h : containsL hay needle = false) :
    ∀ l r, hay ≠ l ++ needle ++ r := by
  intro l r he
  rw [(containsL_iff hay needle).mpr ⟨l, r, he⟩] at h
  cases h

/-- An occurrence of `needle` in `X ++ Y` lies within `X`, within `Y`, or
spans the boundary: `needle = n1 ++ n2` with a non-empty `n1` ending `X` and a
non-empty `n2` starting `Y`. -/
theorem contains_append_cases {X Y needle : List Char}
    (h : ∃ l r, X ++ Y = l ++ needle ++ r) :
    (∃ l r, X = l ++ needle ++ r) ∨ (∃ l r, Y = l ++ needle ++ r) ∨
      (∃ n1 n2, needle = n1 ++ n2 ∧ n1 ≠ [] ∧ n2 ≠ [] ∧
        (∃ l, X = l ++ n1) ∧ (∃ r, Y = n2 ++ r)) := by
  obtain ⟨l, r, hlr⟩ := h
  rw [List.append_assoc] at hlr
  rcases List.append_eq_append_iff.mp hlr with ⟨a, ha1, ha2⟩ | ⟨c, hc1, hc2⟩
  · exact Or.inr (Or.inl ⟨a, r, by rw [ha2, List.append_assoc]⟩)
  · rcases List.append_eq_append_iff.mp hc2 with ⟨a', ha1', ha2'⟩ | ⟨c', hc1', hc2'⟩
    · exact Or.inl ⟨l, a', by rw [hc1, ha1', List.append_assoc]⟩
    · by_cases hcnil : c = []
      · refine Or.inr (Or.inl ⟨[], r, ?_⟩)
        rw [hc2', hc1', hcnil, List.nil_append, List.nil_append]
      · by_cases hcnil' : c' = []
        · refine Or.inl ⟨l, [], ?_⟩
          rw [hc1, hc1', hcnil', List.append_nil, List.append_nil]
        · exact Or.inr (Or.inr ⟨c, c', hc1', hcnil, hcnil',
            ⟨l, hc1⟩, ⟨r, hc2'⟩⟩)

theorem ends_with_of_append (s : String) (l : List Char) (t : String)
    (h : s.toList = l ++ t.toList) : strEndsWith s t = true := by
  unfold strEndsWith
  rw [h, List.reverse_append]
  exact (startsL_iff _ _).mpr ⟨l.reverse, rfl⟩

theorem joinSlash_append_single :
    ∀ (cs : List (List Char)), cs ≠ [] → ∀ seg : List Char,
      joinSlash (cs ++ [seg]) = joinSlash cs ++ '/' :: seg
  | [], h, _ => absurd rfl h
  | [c], _, seg => by simp [joinSlash]
  | c :: c2 :: cs, _, seg => by
    have ih := joinSlash_append_single (c2 :: cs) (by simp) seg
    show joinSlash (c :: (c2 :: cs ++ [seg])) = (c ++ '/' :: joinSlash (c2 :: cs)) ++ '/' :: seg
    cases hx : c2 :: cs ++ [seg] with
    | nil => simp at hx
    | cons x xs =>
      rw [← hx]
      show c ++ '/' :: joinSlash (c2 :: cs ++ [seg]) = _
      rw [ih]
      simp

/-- No 21-character needle occurs in the 11-character tail `"/execledger"`. -/
theorem no_occ_in_slash_e (needle : List Char) (hlen : 11 < needle.length) :
    ∀ l r, '/' :: "execledger".toList ≠ l ++ needle ++ r := by
  intro l r h
  have := congrArg List.length h
  simp only [List.length_append] at this
  have h11 : ('/' :: "execledger".toList).length = 11 := by decide
  rw [h11] at this
  omega

theorem span_prefix_take {Y n2 r : List Char} (h : Y = n2 ++ r) :
    n2 = Y.take n2.length := by rw [h, List.take_left]

theorem span_needle_drop {needle n1 n2 : List Char} (h : needle = n1 ++ n2) :
    n2 = needle.drop n1.length := by rw [h, List.drop_left]

/-- A boundary-spanning occurrence of `"execledger/execledger"` whose second
half starts `"/execledger"` forces the first half to be exactly
`"execledger"`. -/
theorem span_slash_execledger {n1 n2 : List Char}
    (hsplit : "execledger/execledger".toList = n1 ++ n2)
    (hn2 : n2 ≠ []) (hpre : ∃ r, '/' :: "execledger".toList = n2 ++ r) :
    n1 = "execledger".toList := by
  obtain ⟨r, hr⟩ := hpre
  have h1 : n2 = ('/' :: "execledger".toList).take n2.length := span_prefix_take hr
  have h2 : n2 = ("execledger/execledger".toList).drop n1.length :=
    span_needle_drop hsplit
  have hlenN : ("execledger/execledger".toList).length = 21 := by decide
  have hlenY : ('/' :: "execledger".toList).length = 11 := by decide
  have hlen : n1.length + n2.length = 21 := by
    have := congrArg List.length hsplit
    rw [hlenN, List.length_append] at this
    omega
  have hk1 : 1 ≤ n2.length := List.length_pos.mpr hn2
  have hk11 : n2.length ≤ 11 := by
    have := congrArg List.length hr
    rw [hlenY, List.length_append] at this
    omega
  obtain ⟨k, hkeq⟩ : ∃ k, n2.length = k := ⟨_, rfl⟩
  rw [hkeq] at h1 hk1 hk11 hlen
  have hn1l : n1.length = 21 - k := by omega
  rw [hn1l] at h2
  have heq : ('/' :: "execledger".toList).take k =
      ("execledger/execledger".toList).drop (21 - k) := h1.symm.trans h2
  interval_cases k
  all_goals try (exact absurd heq (by decide))
  -- k = 11
  have hn2val : n2 = '/' :: "execledger".toList := by
    rw [show ('/' :: "execledger".toList).take 11 = '/' :: "execledger".toList
      from by decide] at h1
    exact h1
  rw [hn2val] at hsplit
  have hlit : "execledger".toList ++ '/' :: "execledger".toList =
      n1 ++ '/' :: "execledger".toList := by
    rw [← hsplit]; decide
  exact (List.append_cancel_right hlit).symm

/-- No boundary-spanning occurrence of `"_artifacts/_artifacts"` can have its
second half start `"/execledger"`. -/
theorem span_slash_artifacts {n1 n2 : List Char}
    (hsplit : "_artifacts/_artifacts".toList = n1 ++ n2)
    (hn2 : n2 ≠ []) (hpre : ∃ r, '/' :: "execledger".toList = n2 ++ r) :
    False := by
  obtain ⟨r, hr⟩ := hpre
  have h1 : n2 = ('/' :: "execledger".toList).take n2.length := span_prefix_take hr
  have h2 : n2 = ("_artifacts/_artifacts".toList).drop n1.length :=
    span_needle_drop hsplit
  have hlenN : ("_artifacts/_artifacts".toList).length = 21 := by decide
  have hlenY : ('/' :: "execledger".toList).length = 11 := by decide
  have hlen : n1.length + n2.length = 21 := by
    have := congrArg List.length hsplit
    rw [hlenN, List.length_append] at this
    omega
  have hk1 : 1 ≤ n2.length := List.length_pos.mpr hn2
  have hk11 : n2.length ≤ 11 := by
    have := congrArg List.length hr
    rw [hlenY, List.length_append] at this
    omega
  obtain ⟨k, hkeq⟩ : ∃ k, n2.length = k := ⟨_, rfl⟩
  rw [hkeq] at h1 hk1 hk11 hlen
  have hn1l : n1.length = 21 - k := by omega
  rw [hn1l] at h2
  have heq : ('/' :: "execledger".toList).take k =
      ("_artifacts/_artifacts".toList).drop (21 - k) := h1.symm.trans h2
  interval_cases k <;> exact absurd heq (by decide)

/-! ## Claim C1 -/

/--
C1 (counterexample): the claim "for every well-formed path P,
`normalize_project_root (normalize_project_root P) = normalize_project_root P`"
fails at `P = "/execledger/execledger"`: one application yields
`"/execledger"`, a second application yields `"/"`.
-/
theorem C1_idem_counterexample :
    normalize_project_root (normalize_project_root "/execledger/execledger") ≠
      normalize_project_root "/execledger/execledger" := by decide

/--
C1 (amended): `normalize_project_root` is idempotent on every path `P` whose
normalized form's final segment is not (case-insensitively) a reserved name —
i.e. whenever the basename of `normalize_project_root P` is not `"_artifacts"`
or `"execledger"`, a second normalization returns the first one unchanged.
-/
theorem C1_idem_amended (P : String)
    (h1 : lowerL (pathNameL (normalize_project_root P).toList) ≠ "_artifacts".toList)
    (h2 : lowerL (pathNameL (normalize_project_root P).toList) ≠ "execledger".toList) :
    normalize_project_root (normalize_project_root P) = normalize_project_root P := by
  obtain ⟨s, cs, hs, hg, hnp, hnorm⟩ := normalize_structure P.toList
  have key : ∃ cs', GoodComps (s != 0) cs' ∧
      normalizeProjectRootL P.toList = renderP s cs' := by
    rw [hnorm]
    split_ifs with hres
    · exact ⟨cs.dropLast, goodComps_dropLast hg, rfl⟩
    · exact ⟨cs, hg, rfl⟩
  obtain ⟨cs', hg', hN⟩ := key
  have hfix : normpathL (normalizeProjectRootL P.toList) =
      normalizeProjectRootL P.toList := by
    rw [hN]; exact normpathL_renderP s hs cs' hg'
  have h1' : lowerL (pathNameL (normalizeProjectRootL P.toList)) ≠
      "_artifacts".toList := h1
  have h2' : lowerL (pathNameL (normalizeProjectRootL P.toList)) ≠
      "execledger".toList := h2
  have hsuf : normalizeProjectRootL (normalizeProjectRootL P.toList) =
      normalizeProjectRootL P.toList := by
    rw [hN] at hfix h1' h2' ⊢
    simp only [normalizeProjectRootL]
    rw [hfix, if_neg (not_or.mpr ⟨h1', h2'⟩)]
  show String.mk (normalizeProjectRootL (normalizeProjectRootL P.toList)) =
    String.mk (normalizeProjectRootL P.toList)
  rw [hsuf]

/-- C1 (witness): the amended idempotence theorem applied at `P = "/a/b"`. -/
theorem C1_idem_witness :
    normalize_project_root (normalize_project_root "/a/b") =
      normalize_project_root "/a/b" :=
  C1_idem_amended "/a/b" (by decide) (by decide)

/-! ## Claim C2 -/

/--
C2 (counterexample): the claim "`derive_artifacts_root P` never contains the
substring `"execledger/execledger"` or `"_artifacts/_artifacts"`" fails at
`P = "/execledger/execledger"`, where the result is `"/execledger/execledger"`
itself.
-/
theorem C2_doubling_counterexample :
    containsL (derive_artifacts_root "/execledger/execledger").toList
      ("execledger/execledger".toList) = true := by decide

/--
C2 (amended): for every well-formed path `P` such that
`normalize_project_root P` neither contains the substring
`"execledger/execledger"` nor `"_artifacts/_artifacts"` nor ends with the
string `"execledger"`, the string `derive_artifacts_root P` contains neither
`"execledger/execledger"` nor `"_artifacts/_artifacts"` as a substring.
(The restriction is exactly the failure boundary: a normalized root that
already contains a doubled reserved substring survives into the joined
output, and one that merely ends in `"execledger"` — reserved segment or not,
as in `"/xexecledger"` — forms `"execledger/execledger"` across the final
separator.)
-/
theorem C2_doubling_amended (P : String)
    (h1 : containsL (normalize_project_root P).toList
      ("execledger/execledger".toList) = false)
    (h2 : containsL (normalize_project_root P).toList
      ("_artifacts/_artifacts".toList) = false)
    (h3 : strEndsWith (normalize_project_root P) "execledger" = false) :
    containsL (derive_artifacts_root P).toList
      ("execledger/execledger".toList) = false ∧
    containsL (derive_artifacts_root P).toList
      ("_artifacts/_artifacts".toList) = false := by
  obtain ⟨s, cs, hs, hg, hnp, hnorm⟩ := normalize_structure P.toList
  have key : ∃ cs', GoodComps (s != 0) cs' ∧
      normalizeProjectRootL P.toList = renderP s cs' := by
    rw [hnorm]
    split_ifs with hres
    · exact ⟨cs.dropLast, goodComps_dropLast hg, rfl⟩
    · exact ⟨cs, hg, rfl⟩
  obtain ⟨cs', hg', hN⟩ := key
  have hders : (derive_artifacts_root P).toList =
      renderP s (cs' ++ ["execledger".toList]) := by
    show deriveArtifactsRootL P.toList = _
    rw [deriveArtifactsRootL, hN,
      pathJoinNameL_renderP s hs cs' hg'.1 _ (by decide)]
  have hNs : (normalize_project_root P).toList = renderP s cs' := hN
  rcases cs' with - | ⟨c0, cs''⟩
  · -- empty component list: the output is one of three short concrete strings
    rw [hders]
    interval_cases s
    · exact ⟨by decide, by decide⟩
    · exact ⟨by decide, by decide⟩
    · exact ⟨by decide, by decide⟩
  · -- non-empty: output = normalized root ++ "/execledger"
    obtain ⟨hc0ne, -, -⟩ := hg'.1 c0 (List.mem_cons_self _ _)
    obtain ⟨d, ds, rfl⟩ : ∃ d ds, c0 = d :: ds := by
      cases c0 with
      | nil => exact absurd rfl hc0ne
      | cons d ds => exact ⟨d, ds, rfl⟩
    have hout : renderP s ((d :: ds) :: cs'' ++ ["execledger".toList]) =
        renderP s ((d :: ds) :: cs'') ++ '/' :: "execledger".toList := by
      obtain ⟨t, ht⟩ := joinSlash_head d ds (cs'' ++ ["execledger".toList])
      obtain ⟨t', ht'⟩ := joinSlash_head d ds cs''
      rw [renderP, renderP, if_neg (by simp [List.cons_append] at ht ⊢; simp [ht]),
        if_neg (by simp [ht']),
        show ((d :: ds) :: cs'') ++ ["execledger".toList] =
          (d :: ds) :: cs'' ++ ["execledger".toList] from rfl,
        joinSlash_append_single ((d :: ds) :: cs'') (by simp) _,
        List.append_assoc]
    rw [hders, hout, ← hNs]
    constructor
    · refine not_contains _ _ ?_
      rintro ⟨l, r, hocc⟩
      rcases contains_append_cases ⟨l, r, hocc⟩ with ⟨l', r', hin⟩ | ⟨l', r', hin⟩ |
        ⟨n1, n2, hsplit, -, hn2, ⟨lx, hlx⟩, hpre⟩
      · exact contains_false_no_occ h1 l' r' hin
      · exact no_occ_in_slash_e _ (by decide) l' r' hin
      · have hn1e := span_slash_execledger hsplit hn2 hpre
        rw [hn1e] at hlx
        have hend := ends_with_of_append (normalize_project_root P) lx
          "execledger" hlx
        rw [h3] at hend
        cases hend
    · refine not_contains _ _ ?_
      rintro ⟨l, r, hocc⟩
      rcases contains_append_cases ⟨l, r, hocc⟩ with ⟨l', r', hin⟩ | ⟨l', r', hin⟩ |
        ⟨n1, n2, hsplit, -, hn2, -, hpre⟩
      · exact contains_false_no_occ h2 l' r' hin
      · exact no_occ_in_slash_e _ (by decide) l' r' hin
      · exact span_slash_artifacts hsplit hn2 hpre

/-- C2 (witness): the amended theorem applied at `P = "/a/b"`. -/
theorem C2_doubling_witness :
    containsL (derive_artifacts_root "/a/b").toList
      ("execledger/execledger".toList) = false ∧
    containsL (derive_artifacts_root "/a/b").toList
      ("_artifacts/_artifacts".toList) = false :=
  C2_doubling_amended "/a/b" (by decide) (by decide) (by decide)

/-! ## Claims C3, C4, C8: engine gateway -/

/-- A toy parse oracle standing in for `json.loads` in witnesses: accepts
exactly `"{}"`. -/
def toyParse : String → Except String Unit :=
  fun s => if s = "{}" then .ok () else .error "Expecting value"

/--
C3: for every completed engine invocation (no launch failure, no timeout),
`ok = true` iff the exit code is `0` and stdout parses as JSON; and on exit
code `0` with non-JSON stdout the result has `ok = false`, no contract, and
the parse error text prepended to the diagnostic stream (the source f-string
`f"JSON parse error: {e}\\n{stderr}"` uses a literal backslash-n).
-/
theorem C3_ok_classification {J : Type} (parse : String → Except String J)
    (cmd : List String) (stdout stderr : String) (code : Int) :
    ((executeEngine parse cmd (.completed stdout stderr code)).ok = true ↔
      (code = 0 ∧ ∃ j, parse stdout = .ok j)) ∧
    (code = 0 → ∀ e, parse stdout = .error e →
      (executeEngine parse cmd (.completed stdout stderr code)).ok = false ∧
      (executeEngine parse cmd (.completed stdout stderr code)).contract = none ∧
      (executeEngine parse cmd (.completed stdout stderr code)).stderr =
        "JSON parse error: " ++ e ++ "\\n" ++ stderr) := by
  constructor
  · by_cases hc : code = 0
    · simp only [executeEngine, if_pos hc]
      cases hp : parse stdout with
      | ok j => simp [hc]
      | error e => simp [hc]
    · simp only [executeEngine, if_neg hc]
      simp [hc]
  · intro hc e hp
    simp only [executeEngine, if_pos hc, hp]
    simp

/-- C3 (witness): the classification theorem applied to a concrete exit-0,
non-JSON invocation. -/
theorem C3_ok_classification_witness :
    (executeEngine toyParse ["node"] (.completed "x" "boot" 0)).ok = false ∧
    (executeEngine toyParse ["node"] (.completed "x" "boot" 0)).contract = none ∧
    (executeEngine toyParse ["node"] (.completed "x" "boot" 0)).stderr =
      "JSON parse error: " ++ "Expecting value" ++ "\\n" ++ "boot" :=
  (C3_ok_classification toyParse ["node"] "x" "boot" 0).2 rfl
    "Expecting value" rfl

/--
C4 (counterexample): the claim "no Gateway operation ever raises an exception
to its caller" fails for `_get_engine_path`, which raises `FileNotFoundError`
when the engine file is missing instead of returning a result object.
-/
theorem C4_no_raise_counterexample :
    getEnginePath false "/repo/desktop-companion/engine/src/index.js" =
      .error "Engine not found at: /repo/desktop-companion/engine/src/index.js" := rfl

/--
C4 (amended): every engine *invocation* returns a result object even on an
OS-level launch failure — `ok = false`, sentinel exit code `-1`, the exception
text in the diagnostic stream, and no contract; but Gateway construction
(`_get_engine_path`) raises `FileNotFoundError` when the engine binary is
missing.
-/
theorem C4_no_raise_amended {J : Type} (parse : String → Except String J)
    (cmd : List String) (msg : String) :
    ((executeEngine parse cmd (.raised msg)).ok = false ∧
     (executeEngine parse cmd (.raised msg)).code = -1 ∧
     (executeEngine parse cmd (.raised msg)).stderr =
       "Engine execution failed: " ++ msg ∧
     (executeEngine parse cmd (.raised msg)).contract = none) ∧
    (∀ enginePath, getEnginePath false enginePath =
       .error ("Engine not found at: " ++ enginePath)) :=
  ⟨⟨rfl, rfl, rfl, rfl⟩, fun _ => rfl⟩

/--
C8: a timed-out engine invocation (child process exceeding the fixed
30-second subprocess timeout) yields `ok = false`, the failure sentinel exit
code `-1`, and a diagnostic string mentioning the timeout.
-/
theorem C8_timeout_result {J : Type} (parse : String → Except String J)
    (cmd : List String) :
    engineTimeoutSeconds = 30 ∧
    (executeEngine parse cmd .timedOut).ok = false ∧
    (executeEngine parse cmd .timedOut).code = -1 ∧
    (executeEngine parse cmd .timedOut).stderr = "Engine timeout after 30s" ∧
    containsL (executeEngine parse cmd .timedOut).stderr.toList
      "timeout".toList = true :=
  ⟨rfl, rfl, rfl, rfl,
    (by decide : containsL ("Engine timeout after 30s").toList "timeout".toList = true)⟩

/-! ## Claims C5–C7, C9, C10: configuration store -/

/-- A store state with a single project, used to instantiate hypotheses. -/
def sampleState : ConfigState :=
  ⟨"/a/execledger", 1, "PREMIUM", [⟨"A", "/a", "/a/execledger"⟩], "A"⟩

/-- A store state with two projects and a stale active pointer `"X"` that
matches no project. -/
def sampleTwo : ConfigState :=
  ⟨"/a/execledger", 1, "PREMIUM",
    [⟨"A", "/a", "/a/execledger"⟩, ⟨"B", "/b", "/b/execledger"⟩], "X"⟩

/--
C5 (counterexample): the claim "every Configuration Store failure, including
an invalid tier value, is converted into a returned status rather than a
raised exception" fails: writing the invalid tier `"GOLD"` raises
`ValueError("Invalid tier: GOLD")` out of the store.
-/
theorem C5_tier_counterexample :
    (set_tier sampleState "GOLD").1 = some "Invalid tier: GOLD" := by decide

/--
C5 (amended): writing an invalid tier value raises a `ValueError` carrying
the invalid value — the one store failure that escapes as an exception — and
causes no state change and no persistence; valid writes never raise.
-/
theorem C5_tier_amended (st : ConfigState) (value : String)
    (h : value ≠ "FREE" ∧ value ≠ "PRO" ∧ value ≠ "PREMIUM") :
    set_tier st value = (some ("Invalid tier: " ++ value), st, []) := by
  unfold set_tier
  rw [if_neg (by simp [h.1, h.2.1, h.2.2])]

/-- C5 (witness): the amended theorem applied at tier value `"GOLD"`. -/
theorem C5_tier_witness :
    set_tier sampleState "GOLD" = (some ("Invalid tier: " ++ "GOLD"), sampleState, []) :=
  C5_tier_amended sampleState "GOLD" (by decide)

/-- The invariant of claim C6 for one project:
`artifacts_root = normalize_project_root(project_root) + "/execledger"`. -/
def projInv (p : Project) : Prop :=
  p.artifacts_root = pathJoin (normalize_project_root p.project_root) "execledger"

instance decProjInv (p : Project) : Decidable (projInv p) := by
  unfold projInv; infer_instance

theorem derive_eq_join (x : String) :
    derive_artifacts_root x = pathJoin (normalize_project_root x) "execledger" := rfl

theorem upsertList_inv (name pr ar : String)
    (har : ar = pathJoin (normalize_project_root pr) "execledger") :
    ∀ l : List Project, (∀ p ∈ l, projInv p) → ∀ p ∈ upsertList name pr ar l, projInv p
  | [], _, p, hp => by
    rw [List.mem_singleton.mp hp]
    exact har
  | q :: qs, hinv, p, hp => by
    rw [upsertList] at hp
    split_ifs at hp with hq
    · rcases List.mem_cons.mp hp with hp | hp
      · rw [hp]; exact har
      · exact hinv p (List.mem_cons_of_mem _ hp)
    · rcases List.mem_cons.mp hp with hp | hp
      · rw [hp]; exact hinv q (List.mem_cons_self _ _)
      · exact upsertList_inv name pr ar har qs
          (fun r hr => hinv r (List.mem_cons_of_mem _ hr)) p hp

theorem setRootFirst_inv (active value : String) :
    ∀ l : List Project, (∀ p ∈ l, projInv p) → ∀ p ∈ setRootFirst active value l, projInv p
  | [], _, p, hp => by cases hp
  | q :: qs, hinv, p, hp => by
    rw [setRootFirst] at hp
    split_ifs at hp with hq
    · rcases List.mem_cons.mp hp with hp | hp
      · rw [hp]; exact derive_eq_join value
      · exact hinv p (List.mem_cons_of_mem _ hp)
    · rcases List.mem_cons.mp hp with hp | hp
      · rw [hp]; exact hinv q (List.mem_cons_self _ _)
      · exact setRootFirst_inv active value qs
          (fun r hr => hinv r (List.mem_cons_of_mem _ hr)) p hp

theorem normalize_project_entry_inv (repoRoot : String) (entry : ProjEntry) :
    projInv (normalize_project_entry repoRoot entry) := by
  simp only [normalize_project_entry]
  split_ifs <;> exact derive_eq_join _

theorem load_config_inv (repoRoot : String) (file : RawConfig) :
    ∀ p ∈ (load_config repoRoot file).cprojects, projInv p := by
  intro p hp
  simp only [load_config] at hp
  set f2 := (if file.rprojects.isNone ∧ file.rartifacts_root.isSome then
      { file with
          rprojects := some [⟨some "ExecLedger", none, file.rartifacts_root⟩],
          ractive_project := some "ExecLedger" }
    else file) with hf2
  cases hproj : f2.rprojects with
  | none =>
    rw [hproj] at hp
    simp only [Option.map_none', Option.getD_none, defaultProjects,
      List.mem_singleton] at hp
    rw [hp]
    exact derive_eq_join repoRoot
  | some ps =>
    rw [hproj] at hp
    simp only [Option.map_some', Option.getD_some] at hp
    obtain ⟨e, -, rfl⟩ := List.mem_map.mp hp
    exact normalize_project_entry_inv repoRoot e

theorem remove_project_mem (st : ConfigState) (name : String) :
    ∀ p ∈ (remove_project st name).2.1.cprojects, p ∈ st.cprojects := by
  intro p hp
  simp only [remove_project] at hp
  split at hp
  · exact hp
  · split at hp
    · split at hp
      · exact List.mem_of_mem_filter hp
      · exact List.mem_of_mem_filter hp
    · exact List.mem_of_mem_filter hp

/--
C6: the invariant `artifacts_root = normalize_project_root(project_root) +
"/execledger"` holds for every project in the store after each mutating
operation — `upsert_project`, `remove_project`, the `artifacts_root` setter —
provided it held before, and it holds unconditionally for every project
produced by load-time normalization (`normalize_project_entry` and the whole
of `_load_config`).
-/
theorem C6_artifacts_invariant (st : ConfigState)
    (hinv : ∀ p ∈ st.cprojects, projInv p) :
    (∀ name root, ∀ p ∈ (upsert_project st name root).1.cprojects, projInv p) ∧
    (∀ name, ∀ p ∈ (remove_project st name).2.1.cprojects, projInv p) ∧
    (∀ value, ∀ p ∈ (set_artifacts_root st value).1.cprojects, projInv p) ∧
    (∀ repoRoot entry, projInv (normalize_project_entry repoRoot entry)) ∧
    (∀ repoRoot file, ∀ p ∈ (load_config repoRoot file).cprojects, projInv p) := by
  refine ⟨?_, ?_, ?_, fun repoRoot entry => normalize_project_entry_inv repoRoot entry,
    fun repoRoot file => load_config_inv repoRoot file⟩
  · intro name root p hp
    exact upsertList_inv name (normalize_project_root root)
      (derive_artifacts_root (normalize_project_root root))
      (derive_eq_join _) st.cprojects hinv p hp
  · intro name p hp
    exact hinv p (remove_project_mem st name p hp)
  · intro value p hp
    simp only [set_artifacts_root] at hp
    split at hp
    · exact setRootFirst_inv st.cactive_project value st.cprojects hinv p hp
    · exact hinv p hp

/-- C6 (witness): the invariant theorem applied to a concrete store and a
concrete load-time entry. -/
theorem C6_artifacts_invariant_witness :
    projInv (normalize_project_entry "/repo" ⟨some "A", some "/a", some "/x"⟩) :=
  (C6_artifacts_invariant sampleState (by decide)).2.2.2.1 "/repo"
    ⟨some "A", some "/a", some "/x"⟩

/--
C7: on a store holding exactly one project, `remove_project` returns `false`
for every name and leaves the whole state unchanged (and persists nothing),
so the last remaining project can never be removed.
-/
theorem C7_remove_last_refused (st : ConfigState) (name : String)
    (h : st.cprojects.length = 1) :
    remove_project st name = (false, st, []) := by
  unfold remove_project
  rw [if_pos (by omega)]

/-- C7 (witness): removing from a concrete singleton store. -/
theorem C7_remove_last_refused_witness :
    remove_project sampleState "A" = (false, sampleState, []) :=
  C7_remove_last_refused sampleState "A" (by decide)

/--
C9: loading a persisted file containing only
`{"artifacts_root": "/a/b/_artifacts"}` yields exactly one project, with
`project_root = "/a/b"` and `artifacts_root = "/a/b/execledger"` (and the
default name), for any repository root the defaults are built from.
-/
theorem C9_legacy_load (repoRoot : String) :
    (load_config repoRoot ⟨some "/a/b/_artifacts", none, none, none, none⟩).cprojects =
      [⟨"ExecLedger", "/a/b", "/a/b/execledger"⟩] := rfl

/--
C10 (counterexample): the claim "when the name matches no project,
`remove_project` does not modify the active-project pointer" fails on a store
whose stale active pointer equals the requested name: removing `"X"` from a
two-project store with active pointer `"X"` (matching no project) repoints
the active pointer at the first project.
-/
theorem C10_remove_nomatch_counterexample :
    sampleTwo.cprojects.length = 2 ∧
    sampleTwo.cprojects.all (fun p => p.name != "X") = true ∧
    (remove_project sampleTwo "X").2.1.cactive_project ≠
      sampleTwo.cactive_project := by decide

/--
C10 (amended): on a store with at least two projects, `remove_project`
returns `true` for every name; when the name matches no project, the project
list is re-persisted unchanged (the first snapshot handed to `save_config` is
the unchanged state), and — provided the active-project pointer differs from
the given name — the state is completely unchanged and persisted exactly once.
-/
theorem C10_remove_nomatch_amended (st : ConfigState) (name : String)
    (h2 : 2 ≤ st.cprojects.length) :
    (remove_project st name).1 = true ∧
    ((∀ p ∈ st.cprojects, p.name ≠ name) →
      (remove_project st name).2.1.cprojects = st.cprojects ∧
      (remove_project st name).2.2.head? = some st ∧
      (st.cactive_project ≠ name → remove_project st name = (true, st, [st]))) := by
  have hlen : ¬ st.cprojects.length ≤ 1 := by omega
  constructor
  · simp only [remove_project]
    rw [if_neg hlen]
    split
    · split <;> rfl
    · rfl
  · intro hall
    have hf : st.cprojects.filter (fun p => decide (p.name ≠ name)) = st.cprojects :=
      List.filter_eq_self.mpr (fun a ha => by simp [hall a ha])
    have hst1 : ({ st with cprojects := st.cprojects } : ConfigState) = st := rfl
    simp only [remove_project]
    rw [if_neg hlen, hf, hst1]
    by_cases hac : st.cactive_project = name
    · rw [if_pos hac]
      obtain ⟨p0, ps, hcons⟩ : ∃ p0 ps, st.cprojects = p0 :: ps := by
        cases hl : st.cprojects with
        | nil => rw [hl] at h2; simp at h2
        | cons a as => exact ⟨a, as, rfl⟩
      rw [hcons]
      simp only [List.head?_cons]
      exact ⟨trivial, trivial, fun hne => absurd hac hne⟩
    · rw [if_neg hac]
      exact ⟨rfl, rfl, fun _ => rfl⟩

/-- C10 (witness): the amended theorem applied to a two-project store and a
name matching no project, with an active pointer differing from it. -/
theorem C10_remove_nomatch_witness :
    remove_project ⟨"/a/execledger", 1, "PREMIUM",
        [⟨"A", "/a", "/a/execledger"⟩, ⟨"B", "/b", "/b/execledger"⟩], "A"⟩ "Z" =
      (true, ⟨"/a/execledger", 1, "PREMIUM",
        [⟨"A", "/a", "/a/execledger"⟩, ⟨"B", "/b", "/b/execledger"⟩], "A"⟩,
       [⟨"/a/execledger", 1, "PREMIUM",
        [⟨"A", "/a", "/a/execledger"⟩, ⟨"B", "/b", "/b/execledger"⟩], "A"⟩]) :=
  ((C10_remove_nomatch_amended
      ⟨"/a/execledger", 1, "PREMIUM",
        [⟨"A", "/a", "/a/execledger"⟩, ⟨"B", "/b", "/b/execledger"⟩], "A"⟩ "Z"
      (by decide)).2 (by decide)).2.2 (by decide)

/-! ## Cross-checks of the path model against CPython's observed behaviour

Each expected value below was obtained by evaluating the source functions'
semantics (`posixpath.normpath` + `PurePosixPath`) on the same inputs. -/

example : normalize_project_root "" = "." := by decide
example : normalize_project_root "." = "." := by decide
example : normalize_project_root "/" = "/" := by decide
example : normalize_project_root "//" = "//" := by decide
example : normalize_project_root "///" = "/" := by decide
example : normalize_project_root "/a/b" = "/a/b" := by decide
example : normalize_project_root "a//b/./c" = "a/b/c" := by decide
example : normalize_project_root "/a/../b" = "/b" := by decide
example : normalize_project_root "../.." = "../.." := by decide
example : normalize_project_root "/execledger" = "/" := by decide
example : normalize_project_root "execledger" = "." := by decide
example : normalize_project_root "/a/EXECLEDGER" = "/a" := by decide
example : normalize_project_root "/a/b/_artifacts" = "/a/b" := by decide
example : normalize_project_root "/execledger/execledger" = "/execledger" := by decide
example : normalize_project_root "a/../../b" = "../b" := by decide
example : normalize_project_root "//exec//" = "//exec" := by decide
example : normalize_project_root "/a/b/" = "/a/b" := by decide
example : normalize_project_root "_artifacts" = "." := by decide
example : derive_artifacts_root "" = "execledger" := by decide
example : derive_artifacts_root "/" = "/execledger" := by decide
example : derive_artifacts_root "//" = "//execledger" := by decide
example : derive_artifacts_root "/a/b" = "/a/b/execledger" := by decide
example : derive_artifacts_root "../.." = "../../execledger" := by decide
example : derive_artifacts_root "/execledger/execledger" = "/execledger/execledger" := by decide
example : derive_artifacts_root "a/../../b" = "../b/execledger" := by decide
example : derive_artifacts_root "//exec//" = "//exec/execledger" := by decide
